import Mathlib

/-!
Verification development for the oni-agent repository: a shallow embedding of
the batch-correction engine (internal/batchfix + internal/file), the job queue
(internal/queue), and the log stream (internal/logstream), together with
theorems settling the specification claims about them.

Strings are modelled as Lean strings (char sequences; the Go code indexes
bytes, which agrees for ASCII paths). Times are integer nanosecond counts.
Go's int64 arithmetic is modelled with explicit wrapping at 2^64 into the
signed range.
-/

/-! ### Character/string helpers shared by the embeddings -/

/-- Lowercase every character of a string, as strings.ToLower does for ASCII. -/
def strLower (s : String) : String := ⟨s.data.map Char.toLower⟩

/-- Boolean test that the first char list is a prefix of the second. -/
def isPrefixCh : List Char → List Char → Bool
  | [], _ => true
  | _ :: _, [] => false
  | a :: as, b :: bs => a = b && isPrefixCh as bs

/-- Boolean test that the first char list occurs contiguously in the second. -/
def isInfixCh (sub : List Char) : List Char → Bool
  | [] => isPrefixCh sub []
  | c :: t => isPrefixCh sub (c :: t) || isInfixCh sub t

/-- strings.Contains(s, sub): sub occurs as a substring of s. -/
def strContains (s sub : String) : Bool := isInfixCh sub.data s.data

/-- Split a char list around its final slash, as Go's path.Split /
filepath.Split do on Linux: the first component is everything up to and
including the last slash (empty when there is none), the second is the rest. -/
def splitLastSlash : List Char → List Char × List Char
  | [] => ([], [])
  | c :: t =>
    let p := splitLastSlash t
    if p.1 = [] then
      if c = '/' then ([c], p.2) else ([], c :: p.2)
    else (c :: p.1, p.2)

/-- Directory part of a slash path (ends in a slash, or empty). -/
def dirOfPath (p : String) : String := ⟨(splitLastSlash p.data).1⟩

/-- Final path element of a slash path. -/
def baseOfPath (p : String) : String := ⟨(splitLastSlash p.data).2⟩

/-- filepath.Ext on a bare file name: the suffix beginning at the final dot,
empty when the name has no dot. -/
def goExt (s : String) : String :=
  let rev := s.data.reverse
  let pre := rev.takeWhile (fun c => c ≠ '.')
  if pre.length = rev.length then "" else ⟨'.' :: pre.reverse⟩

/-- Boolean test that string s ends with the given suffix. -/
def endsWithStr (s suffix : String) : Bool :=
  isPrefixCh suffix.data.reverse s.data.reverse

/-! ### batchfix: manifest data model (BatchXML / IssueXML, from the source) -/

/-- One issue entry of a batch manifest: attributes plus the element text
(the issue's path relative to the batch's data directory) and the
correction-time skip flag (always false as parsed from XML). -/
structure IssueXML where
  lccn : String
  issueDate : String
  edition : String
  path : String
  skip : Bool
deriving DecidableEq, Repr

/-- A parsed batch.xml: opening-tag attributes plus issue and reel lists
(reels as (reelNumber, path) pairs). -/
structure BatchXML where
  name : String
  awardee : String
  awardYear : String
  issues : List IssueXML
  reels : List (String × String)
deriving DecidableEq, Repr

/-- keyfix: strip every dash and underscore from an issue key. -/
def keyfix (key : String) : String :=
  ⟨key.data.filter (fun c => c ≠ '-' ∧ c ≠ '_')⟩

/-- The normalized key a manifest issue is registered under:
keyfix(lccn + "/" + issueDate + edition). -/
def issueKeyOf (i : IssueXML) : String :=
  keyfix (i.lccn ++ "/" ++ i.issueDate ++ i.edition)

/-- ParseBatch builds a Go map from normalized key to issue by inserting the
issues in order, so later issues overwrite earlier ones with the same key;
a lookup therefore yields the index of the LAST matching issue. -/
def lookupIssueIdxGo (issues : List IssueXML) (k : String) : Option Nat :=
  issues.enum.foldl (fun acc p => if issueKeyOf p.2 = k then some p.1 else acc) none

/-- Resolve the caller's skip keys against the manifest in order, failing at
the first key with no matching issue (mirrors ParseBatch's key loop). -/
def resolveKeys (issues : List IssueXML) : List String → Option (List Nat)
  | [] => some []
  | k :: rest =>
    match lookupIssueIdxGo issues (keyfix k) with
    | none => none
    | some j =>
      match resolveKeys issues rest with
      | none => none
      | some js => some (j :: js)

/-- Set the skip flag of the issue at the given index. -/
def setSkipAt : List IssueXML → Nat → List IssueXML
  | [], _ => []
  | i :: t, 0 => { i with skip := true } :: t
  | i :: t, n + 1 => i :: setSkipAt t n

/-- ParseBatch over an already-deserialized manifest (reading the XML bytes is
outside this model): error when the manifest has no issues, error when any
skip key matches no issue, otherwise mark every matched issue's skip flag. -/
def ParseBatch (b : BatchXML) (skipKeys : List String) : Option BatchXML :=
  if b.issues.length = 0 then none
  else
    match resolveKeys b.issues skipKeys with
    | none => none
    | some js => some { b with issues := js.foldl setSkipAt b.issues }

/-- MarshalXML emits exactly the issues whose skip flag is false. -/
def emittedIssues (b : BatchXML) : List IssueXML :=
  b.issues.filter (fun i => !i.skip)

/-- Rendering of one issue element in the rewritten manifest. -/
def renderIssue (i : IssueXML) : String :=
  "<issue lccn=" ++ i.lccn ++ " issueDate=" ++ i.issueDate ++
    " editionOrder=" ++ i.edition ++ ">" ++ i.path ++ "</issue>"

/-- Rendering of the rewritten batch.xml: the original opening-tag attributes
followed by the non-skipped issues and the reels (WriteBatchXML/MarshalXML). -/
def renderBatch (b : BatchXML) : String :=
  let header := "<ndnp:batch name=" ++ b.name ++ " awardee=" ++ b.awardee ++
    " awardYear=" ++ b.awardYear ++ ">"
  let body := (emittedIssues b).foldl (fun acc i => acc ++ renderIssue i) header
  let body2 := b.reels.foldl
    (fun acc r => acc ++ "<reel reelNumber=" ++ r.1 ++ ">" ++ r.2 ++ "</reel>") body
  body2 ++ "</ndnp:batch>"

/-! ### batchfix: Fixer.walkFunc and Fixer.RemoveIssues -/

/-- Fixer.walkFunc's decision for one regular file, by its walk path (rooted
at the source directory, so paths look like "/data/<lccn>/.../<file>"):
true means the file is copied to the mirrored destination path. The file
name is lowercased, then the file is dropped when it is named batch.xml,
when the name is longer than six characters and ends in _1.xml, when its
extension is .tif or .tiff, or when its directory contains a skip dir. -/
def walkKeep (skipDirs : List String) (pth : String) : Bool :=
  let dir : String := dirOfPath pth
  let filename : String := strLower (baseOfPath pth)
  if filename = "batch.xml" then false
  else if 6 < filename.length ∧ filename.drop (filename.length - 6) = "_1.xml" then false
  else if goExt filename = ".tif" ∨ goExt filename = ".tiff" then false
  else if skipDirs.any (fun sd => strContains dir sd) then false
  else true

/-- Failure injection for one RemoveIssues run: the walk's n-th file copy can
fail, the manifest write can fail, and the final rename can fail. A
no-failure spec models a run on a healthy filesystem. -/
structure FailSpec where
  walkFailAt : Option Nat
  writeFail : Bool
  renameFail : Bool
deriving DecidableEq, Repr

/-- A run with no injected filesystem failures. -/
def noFailure : FailSpec := ⟨none, false, false⟩

/-- The walk over the source files (in list order): kept files are copied in
order; copy number n fails when the failure spec says so, aborting the walk
with an error, as a file.Copy failure aborts afero.Walk. -/
def walkCopyGo (skipDirs : List String) (failAt : Option Nat) :
    Nat → List (String × String) → Except String (List (String × String))
  | _, [] => .ok []
  | n, pc :: rest =>
    if walkKeep skipDirs pc.1 then
      if failAt = some n then .error ("copy failed: " ++ pc.1)
      else
        match walkCopyGo skipDirs failAt (n + 1) rest with
        | .error e => .error e
        | .ok l => .ok (pc :: l)
    else walkCopyGo skipDirs failAt n rest

/-- The filesystem as a RemoveIssues run sees it: the source batch's files
(walk paths with contents), the parsed source manifest (read from
src/data/batch.xml), and the trees at the staging (WIP-UNREADY-) and final
destination names, none when absent. NewFixer's validation admits only
states with no staging and no destination tree. -/
structure FS where
  srcFiles : List (String × String)
  manifest : BatchXML
  staging : Option (List (String × String))
  dest : Option (List (String × String))
deriving DecidableEq, Repr

/-- Outcome of a RemoveIssues run: the returned error, if any, and the
resulting filesystem. -/
structure RunOut where
  err : Option String
  fs : FS
deriving DecidableEq, Repr

/-- Fixer.RemoveIssues: parse the source manifest with the keys to skip
(aborting with the filesystem untouched on a parse error), derive skipDirs
from the skip-marked issues, walk-and-copy into the staging tree, write the
rewritten manifest there, and rename the staging tree to the destination.
Every failure after parsing removes the staging tree; only the final rename
makes the destination tree exist. -/
def removeIssues (fs : FS) (keys : List String) (fl : FailSpec) : RunOut :=
  match ParseBatch fs.manifest keys with
  | none => { err := some "parsing source batch", fs := fs }
  | some b =>
    match walkCopyGo ((b.issues.filter (fun i => i.skip)).map (fun i => dirOfPath i.path))
        fl.walkFailAt 0 fs.srcFiles with
    | .error e => { err := some e, fs := { fs with staging := none } }
    | .ok copied =>
      if fl.writeFail then
        { err := some "writing destination batch", fs := { fs with staging := none } }
      else if fl.renameFail then
        { err := some "moving temporary directory", fs := { fs with staging := none } }
      else
        { err := none
          fs := { fs with
                    staging := none
                    dest := some (copied ++ [("/data/batch.xml", renderBatch b)]) } }

/-! ### internal/file: doCopy and Copy (the retrying copy primitive) -/

/-- The filesystem as the copy primitive sees it: path to content. -/
def lookupFile (fs : List (String × String)) (p : String) : Option String :=
  match fs.find? (fun pc => pc.1 = p) with
  | none => none
  | some pc => some pc.2

/-- Create/overwrite a file (afero Create + io.Copy + Sync). -/
def createFile (fs : List (String × String)) (p c : String) : List (String × String) :=
  (p, c) :: fs.filter (fun pc => pc.1 ≠ p)

/-- doCopy: a same-path copy is a no-op; otherwise open the source (failing
when it does not exist), create the destination, and stream the bytes. -/
def doCopy (fs : List (String × String)) (src dest : String) :
    Except String (List (String × String)) :=
  if src = dest then .ok fs
  else
    match lookupFile fs src with
    | none => .error ("unable to read " ++ src)
    | some c => .ok (createFile fs dest c)

/-- The retry loop of file.Copy: fuel counts the remaining iterations of
for n := 0; n < maxRetry; n++. The accumulator holds the error from the
previous attempt; with zero iterations it is returned as-is. -/
def copyLoop (fs : List (String × String)) (src dest : String) :
    Nat → Option String → Option String × List (String × String)
  | 0, err => (err, fs)
  | n + 1, _ =>
    match doCopy fs src dest with
    | .ok fs2 => (none, fs2)
    | .error e => copyLoop fs src dest n (some e)

/-- file.Copy: run doCopy up to maxRetry times, returning nil immediately on
success; with maxRetry ≤ 0 the loop body never executes and the zero-value
nil error is returned with the filesystem untouched. -/
def fileCopy (fs : List (String × String)) (src dest : String) (maxRetry : Int) :
    Option String × List (String × String) :=
  copyLoop fs src dest maxRetry.toNat none

/-! ### internal/queue: job status and the Job state machine -/

/-- JobStatus values from job.go. -/
inductive JStatus where
  | pending
  | started
  | failStart
  | successful
  | failed
deriving DecidableEq, Repr

/-- The fields of a Job that Start/Wait/Run read or write: the status, the
recorded error (tracked as presence), the started/completed timestamps
(none models Go's zero time), and the purge deadline. -/
structure JState where
  status : JStatus
  hasErr : Bool
  startedAt : Option Int
  completedAt : Option Int
  purgeAt : Int
deriving DecidableEq, Repr

/-- A freshly allocated job (Queue.NewJob): pending, no error, no timestamps,
a 30-day purge deadline from its creation time. -/
def initJob (now : Int) : JState :=
  { status := .pending
    hasErr := false
    startedAt := none
    completedAt := none
    purgeAt := now + 30 * 24 * 3600 * 1000000000 }

/-- Job.Start: build the command and start it; j.err is overwritten with the
launch outcome. On failure the status becomes failStart with a 24h purge
deadline; on success the status becomes started and startedAt is recorded.
The Bool result is true when Start returned a nil error. -/
def jobStart (j : JState) (now : Int) (launchOk : Bool) : JState × Bool :=
  if launchOk then
    ({ j with hasErr := false, status := .started, startedAt := some now }, true)
  else
    ({ j with hasErr := true, status := .failStart,
              purgeAt := now + 24 * 3600 * 1000000000 }, false)

/-- Job.Wait: error (without mutating the job) when a previous operation
already recorded an error or when the job was never started; otherwise
wait on the command (outcome exitOk): failure sets failed with a 24h purge
deadline, success sets successful, completedAt, and a 7-day deadline. -/
def jobWait (j : JState) (now : Int) (exitOk : Bool) : JState × Bool :=
  if j.hasErr then (j, false)
  else if j.startedAt = none then (j, false)
  else if exitOk then
    ({ j with hasErr := false, status := .successful, completedAt := some now,
              purgeAt := now + 7 * 24 * 3600 * 1000000000 }, true)
  else
    ({ j with hasErr := true, status := .failed,
              purgeAt := now + 24 * 3600 * 1000000000 }, false)

/-- Job.Run: Start, then Wait only when Start succeeded. -/
def jobRun (j : JState) (now : Int) (launchOk exitOk : Bool) : JState × Bool :=
  match jobStart j now launchOk with
  | (j2, true) => jobWait j2 now exitOk
  | (j2, false) => (j2, false)

/-- One externally invoked Job method, with its clock reading and the
runner's outcome oracle (whether the launch/the process succeeded).
A Run call performs a start step and, when that start succeeded, a wait
step, so it is modelled by its two constituent operations. -/
inductive JOp where
  | start (now : Int) (launchOk : Bool)
  | wait (now : Int) (exitOk : Bool)
deriving DecidableEq, Repr

/-- Apply one Job method call to the job state. -/
def jobStep (j : JState) : JOp → JState
  | .start now launchOk => (jobStart j now launchOk).1
  | .wait now exitOk => (jobWait j now exitOk).1

/-- Apply a sequence of Job method calls in order. -/
def applyJobOps (j : JState) : List JOp → JState
  | [] => j
  | op :: rest => applyJobOps (jobStep j op) rest

/-- Terminal statuses: successful, failed, couldn't start. -/
def terminalStatus : JStatus → Bool
  | .successful => true
  | .failed => true
  | .failStart => true
  | _ => false

/-- The call discipline of Job.Run and the queue's consumer loop: Start is
only invoked on a pending job and Wait only on a started job. -/
def disciplined (j : JState) : List JOp → Bool
  | [] => true
  | op :: rest =>
    (match op with
     | .start _ _ => j.status = JStatus.pending
     | .wait _ _ => j.status = JStatus.started) && disciplined (jobStep j op) rest

/-- The status transitions the specification allows. -/
def allowedTransition : JStatus → JStatus → Bool
  | .pending, .started => true
  | .pending, .failStart => true
  | .started, .successful => true
  | .started, .failed => true
  | _, _ => false

/-- Every step of the call sequence makes an allowed status transition. -/
def pathAllowed (j : JState) : List JOp → Bool
  | [] => true
  | op :: rest =>
    allowedTransition j.status (jobStep j op).status && pathAllowed (jobStep j op) rest

/-! ### internal/queue: the Queue (NewJob, purgeOldJobs, GetJob, NoOpJob) -/

/-- Two's-complement wrapping of Go int64 arithmetic. -/
def wrap64 (z : Int) : Int := (z + 2 ^ 63) % 2 ^ 64 - 2 ^ 63

/-- The record the queue's lookup map stores for one job (the fields the
queue claims concern: the id, the status, the purge deadline). -/
structure QJob where
  id : Int
  status : JStatus
  purgeAt : Int
deriving DecidableEq, Repr

/-- Queue state: the int64 sequence counter and the id → job lookup map
(as an association list; insertion overwrites any entry with the same id). -/
structure QState where
  seq : Int
  lookup : List (Int × QJob)
deriving DecidableEq, Repr

/-- A fresh queue: sequence at zero, empty lookup. -/
def initQ : QState := { seq := 0, lookup := [] }

/-- Insert into the lookup map, overwriting an existing entry for the id. -/
def insertLookup (l : List (Int × QJob)) (id : Int) (j : QJob) : List (Int × QJob) :=
  (id, j) :: l.filter (fun p => p.1 ≠ id)

/-- Queue.NewJob: under the exclusive lock, increment the int64 sequence
counter (wrapping), allocate a pending job with that id and a 30-day purge
deadline, register it in the lookup map, and hand it back. -/
def newJob (q : QState) (now : Int) : QState × Int :=
  let seq2 := wrap64 (q.seq + 1)
  let j : QJob := { id := seq2, status := .pending,
                    purgeAt := now + 30 * 24 * 3600 * 1000000000 }
  ({ seq := seq2, lookup := insertLookup q.lookup seq2 j }, seq2)

/-- Queue.purgeOldJobs: delete every lookup entry whose purge deadline has
passed (now.After(purgeAt), i.e. strictly later). -/
def purgeOldJobs (q : QState) (now : Int) : QState :=
  { q with lookup := q.lookup.filter (fun p => !(decide (p.2.purgeAt < now))) }

/-- Queue.GetJob: look the id up in the map; none models the nil job pointer
Go returns for an absent id. -/
def getJob (q : QState) (id : Int) : Option QJob :=
  match q.lookup.find? (fun p => p.1 = id) with
  | none => none
  | some p => some p.2

/-- NoOpJob: a fresh job with id -1 and status successful, never registered
in any queue; its purgeAt is Go's zero time. -/
def noOpJob : QJob := { id := -1, status := .successful, purgeAt := 0 }

/-- session.getJob (cmd/agent/session.go): id 0 is invalid; id -1 is answered
with the no-op job before the queue is consulted; any other id is looked up
in the queue. -/
def sessionGetJob (q : QState) (idArg : Int) : Option QJob :=
  if idArg = 0 then none
  else if idArg = noOpJob.id then some noOpJob
  else getJob q idArg

/-- One operation on a queue over its lifetime: a job creation or a purge
sweep, each with its clock reading. -/
inductive QOp where
  | newJob (now : Int)
  | purge (now : Int)
deriving DecidableEq, Repr

/-- Run a queue operation sequence, collecting the ids handed out by the
job creations in order. -/
def runOps (q : QState) : List QOp → QState × List Int
  | [] => (q, [])
  | QOp.newJob t :: rest =>
    let p := newJob q t
    let r := runOps p.1 rest
    (r.1, p.2 :: r.2)
  | QOp.purge t :: rest => runOps (purgeOldJobs q t) rest

/-- The ids a fresh queue assigns over the given operation sequence. -/
def assignedIds (ops : List QOp) : List Int := (runOps initQ ops).2

/-- The id stream depends only on the sequence counter: its closed form. -/
def idsFromSeq (s : Int) : List QOp → List Int
  | [] => []
  | QOp.newJob _ :: rest => wrap64 (s + 1) :: idsFromSeq (wrap64 (s + 1)) rest
  | QOp.purge _ :: rest => idsFromSeq s rest

/-- Number of job creations in an operation sequence. -/
def countNew : List QOp → Nat
  | [] => 0
  | QOp.newJob _ :: rest => countNew rest + 1
  | QOp.purge _ :: rest => countNew rest

/-! ### internal/logstream: Stream.Write and timestamps -/

/-- One captured log entry: timestamp (integer nanoseconds) and line. -/
structure LogE where
  timestamp : Int
  value : String
deriving DecidableEq, Repr

/-- A log stream: captured entries, the last-write time, and the buffered
unterminated partial line. -/
structure LogStream where
  logs : List LogE
  lastWrite : Int
  unprocessed : String
deriving DecidableEq, Repr

/-- A fresh stream (zero time, nothing buffered). -/
def newStream : LogStream := { logs := [], lastWrite := 0, unprocessed := "" }

/-- strings.Split(str, newline) on the underlying chars: the pieces around
every newline, empties included (one more piece than newlines). -/
def splitNl : List Char → List (List Char)
  | [] => [[]]
  | c :: t =>
    if c = '\n' then [] :: splitNl t
    else
      match splitNl t with
      | [] => [[c]]
      | l :: ls => (c :: l) :: ls

/-- strings.Split(data, newline) as a string list. -/
def goSplitNewline (data : String) : List String :=
  (splitNl data.data).map (fun l => ⟨l⟩)

/-- Stream.Write at clock reading now: empty data is a no-op; otherwise split
on newlines, prepend the buffered partial line to the first piece, re-buffer
the piece after the final newline, and append the complete lines with
timestamps now, now+1, ... (one nanosecond per line), leaving lastWrite one
nanosecond past the last emitted line's timestamp. -/
def streamWrite (s : LogStream) (now : Int) (data : String) : LogStream :=
  if data.length = 0 then s
  else
    let lines0 := goSplitNewline data
    let lines1 := (s.unprocessed ++ lines0.headD "") :: lines0.tail
    let complete := lines1.dropLast
    let unproc := (lines1.getLast?).getD ""
    { logs := s.logs ++ complete.enum.map (fun p => { timestamp := now + p.1, value := p.2 })
      lastWrite := now + complete.length
      unprocessed := unproc }

/-- Apply a sequence of writes, each with its clock reading. -/
def writeAll (s : LogStream) : List (Int × String) → LogStream
  | [] => s
  | w :: rest => writeAll (streamWrite s w.1 w.2) rest

/-- The timestamps of the captured entries, in capture order. -/
def timestamps (s : LogStream) : List Int := s.logs.map (fun l => l.timestamp)

/-- The timestamps of the entries one write appends. -/
def stampsAdded (s : LogStream) (now : Int) (data : String) : List Int :=
  ((streamWrite s now data).logs.drop s.logs.length).map (fun l => l.timestamp)

/-- Clock readings that never run behind the stream's internal last-write
time (the previous reading advanced one nanosecond per emitted line). -/
def clockOK (s : LogStream) : List (Int × String) → Bool
  | [] => true
  | w :: rest => decide (s.lastWrite ≤ w.1) && clockOK (streamWrite s w.1 w.2) rest

/-! ### Claim-side predicates and concrete fixtures -/

/-- The baseline filtering predicate exactly as claim C1 words it: keep every
file except the manifest file itself, every file whose name ends in the
validated-XML suffix _1.xml, and every file with a .tif/.tiff extension. -/
def specKeepC1claim (pth : String) : Bool :=
  !(pth = "/data/batch.xml") &&
    !(endsWithStr (baseOfPath pth) "_1.xml") &&
    !(goExt (baseOfPath pth) = ".tif" || goExt (baseOfPath pth) = ".tiff")

/-- The amended C1 exclusion predicate: a file is excluded iff its lowercased
name is batch.xml, or is longer than six characters and ends in _1.xml, or
has (lowercased) extension .tif or .tiff. -/
def excludedC1 (pth : String) : Bool :=
  strLower (baseOfPath pth) = "batch.xml" ||
    (decide (6 < (strLower (baseOfPath pth)).length) &&
      decide ((strLower (baseOfPath pth)).drop ((strLower (baseOfPath pth)).length - 6) = "_1.xml")) ||
    (goExt (strLower (baseOfPath pth)) = ".tif" || goExt (strLower (baseOfPath pth)) = ".tiff")

/-- A walk/destination path lies under a directory given relative to the
batch's data directory (walk paths are rooted at the batch, so the data
prefix is added). -/
def underDir (d : String) (pth : String) : Bool :=
  isPrefixCh ("/data/" ++ d).data pth.data

/-- A small but complete batch manifest fixture (one issue, parsed state). -/
def manifest1 : BatchXML :=
  { name := "testbatch"
    awardee := "test"
    awardYear := "2023"
    issues := [{ lccn := "sn1", issueDate := "1900-01-01", edition := "01",
                 path := "sn1/print/1900010101/1900010101.xml", skip := false }]
    reels := [] }

/-- Fixture for the C1 counterexample: a source tree holding the manifest and
a file literally named _1.xml. -/
def fsC1 : FS :=
  { srcFiles := [("/data/batch.xml", "m"), ("/data/_1.xml", "x")]
    manifest := manifest1
    staging := none
    dest := none }

/-- Fixture for the C3 witness and C4 witness: a valid one-issue batch. -/
def fsC3 : FS :=
  { srcFiles := [("/data/batch.xml", "m"), ("/data/sn1/print/1900010101/0001.pdf", "p")]
    manifest := manifest1
    staging := none
    dest := none }

/-- Fixture for the C2 counterexample: the first issue's path has no directory
component, so its directory is the batch data root itself. -/
def fsC2 : FS :=
  { srcFiles := [("/data/batch.xml", "m"), ("/data/other/x.pdf", "p")]
    manifest :=
      { name := "b2"
        awardee := "a"
        awardYear := "2020"
        issues := [{ lccn := "sn1", issueDate := "1900-01-01", edition := "01",
                     path := "19000101.xml", skip := false },
                   { lccn := "sn2", issueDate := "1900-01-02", edition := "01",
                     path := "other/x.xml", skip := false }]
        reels := [] }
    staging := none
    dest := none }

/-- Mark an issue as skipped (the mutation ParseBatch applies to matches). -/
def markSkip (i : IssueXML) : IssueXML := { i with skip := true }

/-- The first issue of the fsC2 manifest: its path has no directory part. -/
def issueA : IssueXML :=
  { lccn := "sn1", issueDate := "1900-01-01", edition := "01",
    path := "19000101.xml", skip := false }

/-- The second issue of the fsC2 manifest. -/
def issueB : IssueXML :=
  { lccn := "sn2", issueDate := "1900-01-02", edition := "01",
    path := "other/x.xml", skip := false }

/-- The fsC2 manifest after marking its second issue for removal. -/
def bC2marked : BatchXML :=
  { fsC2.manifest with issues := [issueA, markSkip issueB] }

/-! ### Theorems -/

/-- C10: For every filesystem, source path, and destination path, file.Copy
with maxRetry ≤ 0 returns a nil error and leaves the filesystem untouched,
even when the source does not exist: the retry loop body never executes. -/
theorem fileCopy_nonpositive_retry (fs : List (String × String)) (src dest : String)
    (r : Int) (h : r ≤ 0) : fileCopy fs src dest r = (none, fs) := by
  unfold fileCopy
  rw [Int.toNat_of_nonpos h]
  rfl

/-- Witness for C10: at retry count 0 with a missing source file, the copy
returns nil and the (empty) filesystem is unchanged. -/
theorem fileCopy_nonpositive_retry_witness :
    lookupFile [] "missing.txt" = none ∧ fileCopy [] "missing.txt" "out.txt" 0 = (none, []) :=
  ⟨rfl, fileCopy_nonpositive_retry [] "missing.txt" "out.txt" 0 (by decide)⟩

/-- C7: Wait on a pending job that has never been started (no start time, no
recorded error) returns an error and hands back the job completely
unchanged; in particular the status stays pending. -/
theorem jobWait_before_start (j : JState) (now : Int) (exitOk : Bool)
    (hstatus : j.status = JStatus.pending) (hstarted : j.startedAt = none)
    (herr : j.hasErr = false) :
    jobWait j now exitOk = (j, false) ∧ (jobWait j now exitOk).1.status = JStatus.pending := by
  have heq : jobWait j now exitOk = (j, false) := by
    unfold jobWait
    rw [herr, hstarted]
    simp
  exact ⟨heq, by rw [heq]; exact hstatus⟩

/-- Witness for C7: a freshly allocated job answers Wait with an error and is
left pending and otherwise untouched. -/
theorem jobWait_before_start_witness :
    jobWait (initJob 0) 5 true = (initJob 0, false) ∧
    (jobWait (initJob 0) 5 true).1.status = JStatus.pending :=
  jobWait_before_start (initJob 0) 5 true rfl rfl rfl

/-- C9 counterexample: Queue.GetJob(-1) is a not-found result (the nil job),
both on a fresh queue and after a job has been created, because NoOpJob is
never registered in the lookup map; the claim that Queue.GetJob(-1) returns
the no-op job is false. -/
theorem getJob_minus_one_cex :
    getJob initQ (-1) = none ∧ getJob (newJob initQ 0).1 (-1) = none := by
  decide

/-- C9 amended: NoOpJob always has id -1 and status successful, independent
of any queue state; it is the session layer's getJob, not Queue.GetJob,
that answers id -1 with the no-op job before consulting the queue, so a
caller polling through the session needs no special-casing. -/
theorem noOpJob_sessionGetJob (q : QState) :
    noOpJob.id = -1 ∧ noOpJob.status = JStatus.successful ∧
    sessionGetJob q (-1) = some noOpJob := by
  refine ⟨rfl, rfl, ?_⟩
  norm_num [sessionGetJob, noOpJob]

/-- C6 counterexample: Job.Start never checks the current status, so the call
sequence Start-Wait-Start (all succeeding) drives the status pending →
started → successful → started: a later call moves the job out of the
terminal status successful, refuting the claim as stated. -/
theorem job_terminal_cex :
    ¬ (∀ (ops : List JOp) (i j : Nat), i ≤ j →
        terminalStatus (applyJobOps (initJob 0) (ops.take i)).status = true →
        (applyJobOps (initJob 0) (ops.take j)).status =
          (applyJobOps (initJob 0) (ops.take i)).status) := by
  intro h
  have h2 := h [JOp.start 0 true, JOp.wait 0 true, JOp.start 0 true] 2 3
    (by decide) (by decide)
  exact absurd h2 (by decide)

/-- Helper for C6: along any call sequence obeying the discipline (Start only
on a pending job, Wait only on a started job), from a state satisfying the
started-state invariant, every step is one of the four allowed transitions. -/
theorem pathAllowed_of_disciplined (ops : List JOp) : ∀ (j : JState),
    (j.status = JStatus.started → j.hasErr = false ∧ j.startedAt ≠ none) →
    disciplined j ops = true → pathAllowed j ops = true := by
  induction ops with
  | nil => intro j _ _; rfl
  | cons op rest ih =>
    intro j hinv hd
    simp only [disciplined, Bool.and_eq_true] at hd
    obtain ⟨hg, hd2⟩ := hd
    cases op with
    | start now launchOk =>
      have hp : j.status = JStatus.pending := by
        simpa using hg
      cases launchOk with
      | true =>
        simp only [pathAllowed, jobStep, jobStart, if_pos rfl, Bool.and_eq_true]
        refine ⟨by simp [hp, allowedTransition], ?_⟩
        exact ih _ (by intro _; exact ⟨rfl, by simp⟩) (by simpa [jobStep, jobStart] using hd2)
      | false =>
        simp only [pathAllowed, jobStep, jobStart, Bool.and_eq_true]
        refine ⟨by simp [hp, allowedTransition], ?_⟩
        exact ih _ (by intro hcontra; simp at hcontra) (by simpa [jobStep, jobStart] using hd2)
    | wait now exitOk =>
      have hs : j.status = JStatus.started := by
        simpa using hg
      obtain ⟨he, hsa⟩ := hinv hs
      cases exitOk with
      | true =>
        simp only [pathAllowed, jobStep, jobWait, he, hsa, Bool.and_eq_true]
        simp only [if_neg hsa, Bool.false_eq_true, if_false]
        refine ⟨by simp [hs, allowedTransition], ?_⟩
        refine ih _ (by intro hcontra; simp at hcontra) ?_
        simpa [jobStep, jobWait, he, if_neg hsa] using hd2
      | false =>
        simp only [pathAllowed, jobStep, jobWait, he, hsa, Bool.and_eq_true]
        simp only [if_neg hsa, Bool.false_eq_true, if_false]
        refine ⟨by simp [hs, allowedTransition], ?_⟩
        refine ih _ (by intro hcontra; simp at hcontra) ?_
        simpa [jobStep, jobWait, he, if_neg hsa] using hd2

/-- C6 amended: for every sequence of Start and Wait calls (Run being its
start step followed, on success, by its wait step) in which Start is only
invoked while the job is pending and Wait only while it is started — the
discipline Run and the queue's consumer follow — every status change is one
of pending→started, pending→couldn't start, started→successful,
started→failed; in particular no such call sequence leaves a terminal
status. Without that discipline a second Start re-launches a finished job
(see the counterexample). -/
theorem job_status_transitions (now : Int) (ops : List JOp)
    (hd : disciplined (initJob now) ops = true) :
    pathAllowed (initJob now) ops = true :=
  pathAllowed_of_disciplined ops (initJob now)
    (by intro h; simp [initJob] at h) hd

/-- Witness for C6: a disciplined start-then-wait sequence (the process exits
non-zero) makes only allowed transitions. -/
theorem job_status_transitions_witness :
    disciplined (initJob 0) [JOp.start 1 true, JOp.wait 2 false] = true ∧
    pathAllowed (initJob 0) [JOp.start 1 true, JOp.wait 2 false] = true :=
  ⟨by decide, job_status_transitions 0 [JOp.start 1 true, JOp.wait 2 false] (by decide)⟩

/-- Helper: when one of the keys matches no issue, the whole key resolution
fails (ParseBatch's key loop aborts at the first unmatched key). -/
theorem resolveKeys_none_of_mem (issues : List IssueXML) (keys : List String)
    (k : String) (hk : k ∈ keys)
    (h : lookupIssueIdxGo issues (keyfix k) = none) :
    resolveKeys issues keys = none := by
  induction keys with
  | nil => cases hk
  | cons a rest ih =>
    rcases List.mem_cons.mp hk with rfl | hmem
    · simp [resolveKeys, h]
    · unfold resolveKeys
      cases hx : lookupIssueIdxGo issues (keyfix a) with
      | none => rfl
      | some j => rw [ih hmem]

/-- C3: when some key passed to RemoveIssues matches no issue's normalized
key in the source manifest, the run returns an error and the filesystem is
completely unchanged — in particular neither the destination tree nor the
staging tree is created, and no file is copied. -/
theorem removeIssues_unknown_key (fs : FS) (keys : List String) (fl : FailSpec)
    (k : String) (hk : k ∈ keys)
    (hnone : lookupIssueIdxGo fs.manifest.issues (keyfix k) = none) :
    (removeIssues fs keys fl).fs = fs ∧ (removeIssues fs keys fl).err.isSome = true := by
  have hres : resolveKeys fs.manifest.issues keys = none :=
    resolveKeys_none_of_mem _ _ _ hk hnone
  have hparse : ParseBatch fs.manifest keys = none := by
    unfold ParseBatch
    rw [hres]
    split <;> rfl
  unfold removeIssues
  rw [hparse]
  exact ⟨rfl, rfl⟩

/-- Witness for C3: a key naming an absent issue aborts the run with an error
and an untouched filesystem. -/
theorem removeIssues_unknown_key_witness :
    (removeIssues fsC3 ["fakeyfake/1920-01-01_01"] noFailure).fs = fsC3 ∧
    (removeIssues fsC3 ["fakeyfake/1920-01-01_01"] noFailure).err.isSome = true :=
  removeIssues_unknown_key fsC3 ["fakeyfake/1920-01-01_01"] noFailure
    "fakeyfake/1920-01-01_01" (by decide) (by decide)

/-- C4: whenever a RemoveIssues run on a validated filesystem (no staging
tree, no destination tree — what NewFixer checks) returns an error, the
final state has no staging tree and no tree at the destination name: every
failing branch removes the staging tree, and only the final rename (which
here did not happen) makes a destination exist. -/
theorem removeIssues_failure_cleanup (fs : FS) (keys : List String) (fl : FailSpec)
    (hstag : fs.staging = none) (hdest : fs.dest = none)
    (herr : (removeIssues fs keys fl).err ≠ none) :
    (removeIssues fs keys fl).fs.staging = none ∧
    (removeIssues fs keys fl).fs.dest = none := by
  unfold removeIssues at herr ⊢
  cases hp : ParseBatch fs.manifest keys with
  | none =>
    exact ⟨hstag, hdest⟩
  | some b =>
    rw [hp] at herr
    dsimp only at herr ⊢
    cases hw : walkCopyGo ((b.issues.filter (fun i => i.skip)).map (fun i => dirOfPath i.path))
        fl.walkFailAt 0 fs.srcFiles with
    | error e2 =>
      exact ⟨rfl, hdest⟩
    | ok copied =>
      rw [hw] at herr
      dsimp only at herr ⊢
      by_cases h1 : fl.writeFail = true
      · simp only [if_pos h1]
        exact ⟨trivial, hdest⟩
      · by_cases h2 : fl.renameFail = true
        · simp only [if_neg h1, if_pos h2]
          exact ⟨trivial, hdest⟩
        · exfalso
          apply herr
          simp only [if_neg h1, if_neg h2]

/-- Witness for C4: a run whose manifest write fails leaves no staging tree
and no destination tree. -/
theorem removeIssues_failure_cleanup_witness :
    (removeIssues fsC3 [] ⟨none, true, false⟩).fs.staging = none ∧
    (removeIssues fsC3 [] ⟨none, true, false⟩).fs.dest = none :=
  removeIssues_failure_cleanup fsC3 [] ⟨none, true, false⟩ rfl rfl (by decide)

/-- Helper: parsing with an empty key list succeeds on any manifest with at
least one issue and leaves the manifest unchanged. -/
theorem ParseBatch_nil (b : BatchXML) (h : b.issues ≠ []) : ParseBatch b [] = some b := by
  unfold ParseBatch
  rw [if_neg (fun hc => h (List.length_eq_zero.mp hc))]
  rfl

/-- Helper: a walk with no injected copy failure copies exactly the files the
walk predicate keeps, in source order. -/
theorem walkCopyGo_none (sd : List String) (files : List (String × String)) : ∀ n,
    walkCopyGo sd none n files = Except.ok (files.filter (fun pc => walkKeep sd pc.1)) := by
  induction files with
  | nil => intro n; rfl
  | cons pc rest ih =>
    intro n
    by_cases h : walkKeep sd pc.1 = true
    · simp [walkCopyGo, h, List.filter_cons, ih]
    · simp [walkCopyGo, h, List.filter_cons, ih]

/-- Helper: with no skip directories, the walk predicate agrees pointwise with
the amended baseline exclusion predicate. -/
theorem walkKeep_nil_eq (p : String) : walkKeep [] p = !excludedC1 p := by
  unfold walkKeep excludedC1
  simp only [List.any_nil]
  by_cases h1 : strLower (baseOfPath p) = "batch.xml"
  · rw [if_pos h1, decide_eq_true h1]
    simp
  · rw [if_neg h1, decide_eq_false h1]
    by_cases h2 : 6 < (strLower (baseOfPath p)).length ∧
        (strLower (baseOfPath p)).drop ((strLower (baseOfPath p)).length - 6) = "_1.xml"
    · rw [if_pos h2, decide_eq_true h2.1, decide_eq_true h2.2]
      simp
    · rw [if_neg h2]
      have h2b : (decide (6 < (strLower (baseOfPath p)).length) &&
          decide ((strLower (baseOfPath p)).drop
            ((strLower (baseOfPath p)).length - 6) = "_1.xml")) = false := by
        rw [← Bool.decide_and]
        exact decide_eq_false h2
      rw [h2b]
      by_cases h3 : goExt (strLower (baseOfPath p)) = ".tif" ∨ goExt (strLower (baseOfPath p)) = ".tiff"
      · rw [if_pos h3]
        rcases h3 with h | h
        · rw [decide_eq_true h]
          simp
        · rw [decide_eq_true h]
          simp
      · rw [if_neg h3]
        rw [decide_eq_false (fun hh => h3 (Or.inl hh)),
          decide_eq_false (fun hh => h3 (Or.inr hh))]
        simp

/-- C1 counterexample: on a source tree holding a file literally named _1.xml
(six characters), RemoveIssues with no keys copies that file — the walk only
drops names LONGER than six characters ending in _1.xml — so the destination
differs from the tree the claim predicts (source minus manifest, minus every
name ending in _1.xml, minus TIFFs). -/
theorem removeIssues_baseline_cex :
    (removeIssues fsC1 [] noFailure).fs.dest ≠
      some ((fsC1.srcFiles.filter (fun pc => specKeepC1claim pc.1)) ++
        [("/data/batch.xml", renderBatch fsC1.manifest)]) := by
  decide

/-- C1 amended: for every validated filesystem whose manifest has at least one
issue (all parsed with skip false), RemoveIssues with an empty key list
succeeds and the destination tree is exactly the rewritten manifest plus
the source files filtered by the amended baseline law: drop files whose
lowercased name is batch.xml, files whose lowercased name is longer than
six characters and ends in _1.xml, and files with a lowercased .tif/.tiff
extension; every other file is copied to its mirrored path. -/
theorem removeIssues_empty_keys (fs : FS)
    (hne : fs.manifest.issues ≠ [])
    (hsk : ∀ i ∈ fs.manifest.issues, i.skip = false)
    (hstag : fs.staging = none) (hdest : fs.dest = none) :
    removeIssues fs [] noFailure =
      { err := none
        fs := { fs with
                  staging := none
                  dest := some (fs.srcFiles.filter (fun pc => !excludedC1 pc.1) ++
                    [("/data/batch.xml", renderBatch fs.manifest)]) } } := by
  have hfil : fs.manifest.issues.filter (fun i => i.skip) = [] := by
    rw [List.filter_eq_nil_iff]
    intro i hi
    simp [hsk i hi]
  have hcongr : fs.srcFiles.filter (fun pc => walkKeep [] pc.1) =
      fs.srcFiles.filter (fun pc => !excludedC1 pc.1) :=
    List.filter_congr (fun pc _ => walkKeep_nil_eq pc.1)
  unfold removeIssues
  rw [ParseBatch_nil fs.manifest hne]
  dsimp only
  rw [hfil]
  dsimp only [List.map_nil, noFailure]
  rw [walkCopyGo_none]
  dsimp only
  rw [hcongr]
  rfl

/-- Witness for C1 amended: the one-issue fixture batch is corrected to its
filtered tree plus the rewritten manifest. -/
theorem removeIssues_empty_keys_witness :
    removeIssues fsC3 [] noFailure =
      { err := none
        fs := { fsC3 with
                  staging := none
                  dest := some (fsC3.srcFiles.filter (fun pc => !excludedC1 pc.1) ++
                    [("/data/batch.xml", renderBatch fsC3.manifest)]) } } :=
  removeIssues_empty_keys fsC3 (by decide) (by decide) rfl rfl

/-- Helper: a list is a boolean prefix of itself followed by anything. -/
theorem isPrefixCh_append (a : List Char) : ∀ t, isPrefixCh a (a ++ t) = true := by
  induction a with
  | nil => intro t; rfl
  | cons c as ih => intro t; simp [isPrefixCh, ih]

/-- Helper: a boolean prefix is in particular a boolean infix. -/
theorem isInfixCh_of_isPrefixCh (a l : List Char) (h : isPrefixCh a l = true) :
    isInfixCh a l = true := by
  cases l with
  | nil => simpa [isInfixCh] using h
  | cons c t => simp [isInfixCh, h]

/-- Helper: occurring in a list means occurring in any left extension of it. -/
theorem isInfixCh_append_left (a l : List Char) (h : isInfixCh a l = true) :
    ∀ s, isInfixCh a (s ++ l) = true := by
  intro s
  induction s with
  | nil => simpa using h
  | cons c s2 ih => simp [isInfixCh, ih]

/-- Helper: the empty list occurs in every list. -/
theorem isInfixCh_nil (l : List Char) : isInfixCh [] l = true := by
  cases l with
  | nil => rfl
  | cons c t => simp [isInfixCh, isPrefixCh]

/-- Helper: a boolean prefix yields a decomposition of the larger list. -/
theorem isPrefixCh_exists (a : List Char) : ∀ b, isPrefixCh a b = true → ∃ t, b = a ++ t := by
  induction a with
  | nil => intro b _; exact ⟨b, rfl⟩
  | cons c as ih =>
    intro b h
    cases b with
    | nil => simp [isPrefixCh] at h
    | cons d bs =>
      simp only [isPrefixCh, Bool.and_eq_true, decide_eq_true_eq] at h
      obtain ⟨rfl, h2⟩ := h
      obtain ⟨t, rfl⟩ := ih bs h2
      exact ⟨t, rfl⟩

/-- Helper: one unfolding step of the path split. -/
theorem splitLastSlash_cons (c : Char) (t : List Char) :
    splitLastSlash (c :: t) =
      if (splitLastSlash t).1 = [] then
        if c = '/' then ([c], (splitLastSlash t).2) else ([], c :: (splitLastSlash t).2)
      else (c :: (splitLastSlash t).1, (splitLastSlash t).2) := rfl

/-- Helper: splitting a path that starts with a slash-terminated chunk keeps
that chunk in the directory part. -/
theorem splitLastSlash_append_slash (t : List Char) : ∀ r,
    splitLastSlash ((t ++ ['/']) ++ r) =
      ((t ++ ['/']) ++ (splitLastSlash r).1, (splitLastSlash r).2) := by
  induction t with
  | nil =>
    intro r
    simp only [List.nil_append, List.cons_append]
    rw [splitLastSlash_cons]
    by_cases h : (splitLastSlash r).1 = []
    · simp [h]
    · simp [h]
  | cons c t2 ih =>
    intro r
    simp only [List.cons_append]
    rw [splitLastSlash_cons, ih r]
    have hne : (t2 ++ ['/']) ++ (splitLastSlash r).1 ≠ [] := by
      simp
    simp only [List.cons_append] at hne ⊢
    simp [hne]

/-- Helper: the directory part produced by a split is empty or ends with a
slash. -/
theorem splitLastSlash_dir_shape (l : List Char) :
    (splitLastSlash l).1 = [] ∨ ∃ t, (splitLastSlash l).1 = t ++ ['/'] := by
  induction l with
  | nil => exact Or.inl rfl
  | cons c l2 ih =>
    rw [splitLastSlash_cons]
    by_cases h : (splitLastSlash l2).1 = []
    · by_cases hc : c = '/'
      · right
        refine ⟨[], ?_⟩
        simp [h, hc]
      · left
        simp [h, hc]
    · rcases ih with h0 | ⟨t, ht⟩
      · exact absurd h0 h
      · right
        refine ⟨c :: t, ?_⟩
        simp [h, ht]

/-- Helper: when a path lies under a data-relative directory d (of directory
shape: empty or slash-terminated), d occurs in the path's directory part,
so the walk's strings.Contains skip check fires. -/
theorem strContains_dir_of_underDir (d p : String)
    (hshape : d.data = [] ∨ ∃ t, d.data = t ++ ['/'])
    (hu : underDir d p = true) : strContains (dirOfPath p) d = true := by
  unfold underDir at hu
  obtain ⟨r, hr⟩ := isPrefixCh_exists _ _ hu
  unfold strContains dirOfPath
  rcases hshape with h0 | ⟨t, ht⟩
  · rw [h0]
    exact isInfixCh_nil _
  · have hdata : ("/data/" ++ d).data = ("/data".data ++ ('/' :: t)) ++ ['/'] := by
      simp [ht]
    rw [hdata] at hr
    rw [hr, splitLastSlash_append_slash]
    have hsplit : ("/data".data ++ '/' :: t) ++ ['/'] ++ (splitLastSlash r).1 =
        "/data/".data ++ (d.data ++ (splitLastSlash r).1) := by
      simp [ht]
    show isInfixCh d.data (("/data".data ++ '/' :: t) ++ ['/'] ++ (splitLastSlash r).1) = true
    rw [hsplit]
    exact isInfixCh_append_left _ _
      (isInfixCh_of_isPrefixCh _ _ (ht ▸ isPrefixCh_append d.data (splitLastSlash r).1)) _

/-- Helper: a file the walk keeps passed the skip-directory check: no skip
directory occurs in its directory part. -/
theorem walkKeep_true_no_skip (sds : List String) (p : String)
    (h : walkKeep sds p = true) :
    sds.any (fun sd => strContains (dirOfPath p) sd) = false := by
  unfold walkKeep at h
  dsimp only at h
  split_ifs at h with h1 h2 h3 h4
  simpa using h4

/-- Helper: setting the skip flag at one index, seen through indexing. -/
theorem setSkipAt_getElem (l : List IssueXML) : ∀ (m n : Nat),
    (setSkipAt l m)[n]? = if n = m then (l[n]?).map markSkip else l[n]? := by
  induction l with
  | nil =>
    intro m n
    simp [setSkipAt]
  | cons i t ih =>
    intro m n
    cases m with
    | zero =>
      cases n with
      | zero => simp [setSkipAt, markSkip]
      | succ n2 => simp [setSkipAt]
    | succ m2 =>
      cases n with
      | zero => simp [setSkipAt]
      | succ n2 =>
        simp only [setSkipAt, List.getElem?_cons_succ]
        rw [ih m2 n2]
        by_cases hnm : n2 = m2
        · simp [hnm]
        · simp [hnm]

/-- Helper: marking a set of indices leaves every other index unchanged. -/
theorem foldl_setSkipAt_not_mem (js : List Nat) : ∀ (l : List IssueXML) (j : Nat),
    j ∉ js → (js.foldl setSkipAt l)[j]? = l[j]? := by
  induction js with
  | nil => intro l j _; rfl
  | cons a rest ih =>
    intro l j hj
    have hne : j ≠ a := fun hc => hj (hc ▸ List.mem_cons_self a rest)
    have hrest : j ∉ rest := fun hc => hj (List.mem_cons_of_mem a hc)
    simp only [List.foldl_cons, ih (setSkipAt l a) j hrest, setSkipAt_getElem, if_neg hne]

/-- Helper: marking a set of indices sets the skip flag at each of them. -/
theorem foldl_setSkipAt_mem (js : List Nat) : ∀ (l : List IssueXML) (j : Nat),
    j ∈ js → (js.foldl setSkipAt l)[j]? = (l[j]?).map markSkip := by
  induction js with
  | nil => intro l j hj; cases hj
  | cons a rest ih =>
    intro l j hj
    by_cases hrest : j ∈ rest
    · rw [List.foldl_cons, ih (setSkipAt l a) j hrest, setSkipAt_getElem]
      by_cases hja : j = a
      · rw [if_pos hja]
        cases l[j]? <;> rfl
      · rw [if_neg hja]
    · have hja : j = a := by
        rcases List.mem_cons.mp hj with h | h
        · exact h
        · exact absurd h hrest
      rw [List.foldl_cons, foldl_setSkipAt_not_mem rest (setSkipAt l a) j hrest,
        setSkipAt_getElem, if_pos hja]

/-- Helper: a key that resolves to index j puts j among the resolved
indices. -/
theorem resolveKeys_mem (issues : List IssueXML) (keys : List String) : ∀ (js : List Nat)
    (k : String) (j : Nat), resolveKeys issues keys = some js → k ∈ keys →
    lookupIssueIdxGo issues (keyfix k) = some j → j ∈ js := by
  induction keys with
  | nil => intro js k j _ hk; cases hk
  | cons a rest ih =>
    intro js k j hres hk hj
    unfold resolveKeys at hres
    cases ha : lookupIssueIdxGo issues (keyfix a) with
    | none => rw [ha] at hres; cases hres
    | some ja =>
      rw [ha] at hres
      cases hr : resolveKeys issues rest with
      | none => rw [hr] at hres; cases hres
      | some jrest =>
        rw [hr] at hres
        have hjs : js = ja :: jrest := by
          simpa using hres.symm
        subst hjs
        rcases List.mem_cons.mp hk with rfl | hmem
        · have : ja = j := by rw [ha] at hj; simpa using hj
          exact this ▸ List.mem_cons_self ja jrest
        · exact List.mem_cons_of_mem ja (ih jrest k j hr hmem hj)

/-- Helper: a successful parse decomposes into resolved skip indices and the
marked issue list. -/
theorem ParseBatch_some (b : BatchXML) (keys : List String) (b2 : BatchXML)
    (h : ParseBatch b keys = some b2) :
    ∃ js, resolveKeys b.issues keys = some js ∧
      b2 = { b with issues := js.foldl setSkipAt b.issues } := by
  unfold ParseBatch at h
  by_cases h0 : b.issues.length = 0
  · rw [if_pos h0] at h
    cases h
  · rw [if_neg h0] at h
    revert h
    cases hr : resolveKeys b.issues keys with
    | none => intro h; cases h
    | some js =>
      intro h
      exact ⟨js, rfl, (Option.some.inj h).symm⟩

/-- C2 counterexample: removing the issue whose path has no directory
component (its source-relative directory is the batch data root) succeeds,
yet the rewritten manifest — a file of the destination tree — lies under
that issue's directory, so the claim that no file under the removed issue's
directory appears anywhere in the destination is false. -/
theorem removeIssues_underdir_cex :
    dirOfPath issueA.path = "" ∧
    (removeIssues fsC2 ["sn1/1900-01-01_01"] noFailure).err = none ∧
    ((removeIssues fsC2 ["sn1/1900-01-01_01"] noFailure).fs.dest.getD []).any
      (fun pc => underDir (dirOfPath issueA.path) pc.1) = true := by
  decide

/-- C2 amended: for every key that matches an issue of the source manifest
(matched at index j, the last index with that normalized key), the parse
marks exactly that issue's skip flag; the marked issue is omitted from the
rewritten manifest, and an issue is emitted there iff its skip flag is
false; and every file of the destination tree of a no-failure run is either
the rewritten manifest at data/batch.xml or lies outside the removed
issue's source-relative directory (no file copied from the source lies
under it — only the unconditionally written manifest can, and only when
the issue's directory is empty or a prefix of data/batch.xml's path). -/
theorem removeIssues_removed_issue (fs : FS) (keys : List String) (k : String)
    (j : Nat) (i0 : IssueXML) (b : BatchXML)
    (hp : ParseBatch fs.manifest keys = some b)
    (hk : k ∈ keys)
    (hj : lookupIssueIdxGo fs.manifest.issues (keyfix k) = some j)
    (hi0 : fs.manifest.issues[j]? = some i0) :
    b.issues[j]? = some (markSkip i0) ∧
    markSkip i0 ∉ emittedIssues b ∧
    (∀ i2, i2 ∈ emittedIssues b ↔ (i2 ∈ b.issues ∧ i2.skip = false)) ∧
    (∀ pc ∈ ((removeIssues fs keys noFailure).fs.dest.getD []),
      pc.1 = "/data/batch.xml" ∨ underDir (dirOfPath i0.path) pc.1 = false) := by
  obtain ⟨js, hres, hb2⟩ := ParseBatch_some fs.manifest keys b hp
  have hjmem : j ∈ js := resolveKeys_mem fs.manifest.issues keys js k j hres hk hj
  have hbj : b.issues[j]? = some (markSkip i0) := by
    rw [hb2]
    show (js.foldl setSkipAt fs.manifest.issues)[j]? = _
    rw [foldl_setSkipAt_mem js fs.manifest.issues j hjmem, hi0]
    rfl
  refine ⟨hbj, ?_, ?_, ?_⟩
  · intro hmem
    have hns := (List.mem_filter.mp hmem).2
    simp [markSkip] at hns
  · intro i2
    constructor
    · intro hm
      have h2 := List.mem_filter.mp hm
      exact ⟨h2.1, by simpa using h2.2⟩
    · intro hm
      exact List.mem_filter.mpr ⟨hm.1, by simp [hm.2]⟩
  · intro pc hpc
    have hmarked_mem : markSkip i0 ∈ b.issues := List.getElem?_mem hbj
    have hd_mem0 : dirOfPath (markSkip i0).path ∈
        (b.issues.filter (fun i => i.skip)).map (fun i => dirOfPath i.path) :=
      List.mem_map_of_mem _ (List.mem_filter.mpr ⟨hmarked_mem, rfl⟩)
    have hd_mem : dirOfPath i0.path ∈
        (b.issues.filter (fun i => i.skip)).map (fun i => dirOfPath i.path) := hd_mem0
    have hdest_eq : (removeIssues fs keys noFailure).fs.dest =
        some ((fs.srcFiles.filter (fun pc2 =>
            walkKeep ((b.issues.filter (fun i => i.skip)).map (fun i => dirOfPath i.path)) pc2.1)) ++
          [("/data/batch.xml", renderBatch b)]) := by
      unfold removeIssues
      rw [hp]
      dsimp only [noFailure]
      rw [walkCopyGo_none]
      rfl
    rw [hdest_eq] at hpc
    rcases List.mem_append.mp hpc with hin | hin
    · right
      cases hu : underDir (dirOfPath i0.path) pc.1 with
      | false => rfl
      | true =>
        exfalso
        have hkeep := (List.mem_filter.mp hin).2
        have hno := walkKeep_true_no_skip _ pc.1 hkeep
        have hcont := strContains_dir_of_underDir (dirOfPath i0.path) pc.1
          (splitLastSlash_dir_shape i0.path.data) hu
        have hany : ((b.issues.filter (fun i => i.skip)).map
            (fun i => dirOfPath i.path)).any
              (fun sd => strContains (dirOfPath pc.1) sd) = true :=
          List.any_eq_true.mpr ⟨dirOfPath i0.path, hd_mem, hcont⟩
        rw [hno] at hany
        cases hany
    · left
      have := List.mem_singleton.mp hin
      rw [this]

/-- Witness for C2 amended: removing the second fixture issue marks it,
omits it from the rewritten manifest, and keeps every destination file
outside its directory (or it is the manifest itself). -/
theorem removeIssues_removed_issue_witness :
    bC2marked.issues[1]? = some (markSkip issueB) ∧
    markSkip issueB ∉ emittedIssues bC2marked ∧
    (∀ i2, i2 ∈ emittedIssues bC2marked ↔ (i2 ∈ bC2marked.issues ∧ i2.skip = false)) ∧
    (∀ pc ∈ ((removeIssues fsC2 ["sn2/1900-01-02_01"] noFailure).fs.dest.getD []),
      pc.1 = "/data/batch.xml" ∨ underDir (dirOfPath issueB.path) pc.1 = false) :=
  removeIssues_removed_issue fsC2 ["sn2/1900-01-02_01"] "sn2/1900-01-02_01" 1 issueB bC2marked
    (by decide) (by decide) (by decide) (by decide)

/-- Helper: the int64 powers as numerals. -/
theorem pow63_int : (2 : Int) ^ 63 = 9223372036854775808 := by norm_num

/-- Helper: 2^64 as a numeral. -/
theorem pow64_int : (2 : Int) ^ 64 = 18446744073709551616 := by norm_num

/-- Helper: wrapping is the identity on the int64 range. -/
theorem wrap64_eq (z : Int) (h1 : -(2 ^ 63) ≤ z) (h2 : z < 2 ^ 63) : wrap64 z = z := by
  unfold wrap64
  rw [pow63_int] at h1 h2 ⊢
  rw [pow64_int]
  rw [Int.emod_eq_of_lt (by omega) (by omega)]
  omega

/-- Helper: wrapping composes with addition. -/
theorem wrap64_add (a b : Int) : wrap64 (wrap64 a + b) = wrap64 (a + b) := by
  unfold wrap64
  have h1 : (a + 2 ^ 63) % 2 ^ 64 - 2 ^ 63 + b + 2 ^ 63 = (a + 2 ^ 63) % 2 ^ 64 + b := by
    ring
  rw [h1, Int.emod_add_emod]
  have h2 : a + 2 ^ 63 + b = a + b + 2 ^ 63 := by ring
  rw [h2]

/-- Helper: the id stream of a run depends only on the sequence counter. -/
theorem runOps_ids (ops : List QOp) : ∀ q : QState,
    (runOps q ops).2 = idsFromSeq q.seq ops := by
  induction ops with
  | nil => intro q; rfl
  | cons op rest ih =>
    intro q
    cases op with
    | newJob t => simp [runOps, idsFromSeq, ih, newJob]
    | purge t => simp [runOps, idsFromSeq, ih, purgeOldJobs]

/-- Helper: below the wrap point the id stream is strictly increasing and
bounded below by the current counter. -/
theorem idsFromSeq_bounds (ops : List QOp) : ∀ s : Int, 0 ≤ s →
    s + countNew ops < 2 ^ 63 →
    (idsFromSeq s ops).Pairwise (fun a b => a < b) ∧
      ∀ x ∈ idsFromSeq s ops, s < x := by
  induction ops with
  | nil =>
    intro s _ _
    exact ⟨List.Pairwise.nil, by intro x hx; cases hx⟩
  | cons op rest ih =>
    intro s hs hlt
    cases op with
    | purge t =>
      simp only [idsFromSeq, countNew] at hlt ⊢
      exact ih s hs hlt
    | newJob t =>
      simp only [idsFromSeq, countNew] at hlt ⊢
      have hcast : (↑(countNew rest + 1) : Int) = ↑(countNew rest) + 1 := by push_cast; ring
      rw [hcast] at hlt
      have hnn : (0 : Int) ≤ (countNew rest : Int) := Int.natCast_nonneg _
      have hw : wrap64 (s + 1) = s + 1 := wrap64_eq _ (by rw [pow63_int]; omega) (by omega)
      rw [hw]
      have hrec := ih (s + 1) (by omega) (by omega)
      refine ⟨List.Pairwise.cons (fun y hy => hrec.2 y hy) hrec.1, ?_⟩
      intro x hx
      rcases List.mem_cons.mp hx with rfl | hmem
      · omega
      · have := hrec.2 x hmem
        omega

/-- C5 amended: as long as fewer than 2^63 jobs are ever created on one queue
(the int64 sequence counter does not wrap), the ids handed out — purge
sweeps interleaved anywhere — are strictly increasing in creation order and
never repeat. Beyond 2^63 creations the counter wraps and both properties
fail (see the counterexample). -/
theorem queue_ids_strictly_increasing (ops : List QOp)
    (h : (countNew ops : Int) < 2 ^ 63) :
    (assignedIds ops).Pairwise (fun a b => a < b) ∧ (assignedIds ops).Nodup := by
  have h1 := idsFromSeq_bounds ops 0 le_rfl (by omega)
  unfold assignedIds
  rw [runOps_ids]
  show (idsFromSeq initQ.seq ops).Pairwise _ ∧ (idsFromSeq initQ.seq ops).Nodup
  have h2 : initQ.seq = 0 := rfl
  rw [h2]
  exact ⟨h1.1, h1.1.imp (fun hlt => ne_of_lt hlt)⟩

/-- Witness for C5 amended: three operations (two creations around a purge)
yield ids 1, 2: strictly increasing and duplicate-free. -/
theorem queue_ids_strictly_increasing_witness :
    ((countNew [QOp.newJob 5, QOp.purge 9, QOp.newJob 7] : Int) < 2 ^ 63) ∧
    ((assignedIds [QOp.newJob 5, QOp.purge 9, QOp.newJob 7]).Pairwise (fun a b => a < b) ∧
      (assignedIds [QOp.newJob 5, QOp.purge 9, QOp.newJob 7]).Nodup) :=
  ⟨by decide, queue_ids_strictly_increasing [QOp.newJob 5, QOp.purge 9, QOp.newJob 7] (by decide)⟩

/-- Helper: the id stream of n consecutive creations in closed form. -/
theorem idsFromSeq_replicate (t : Int) : ∀ (n : Nat) (s : Int),
    idsFromSeq s (List.replicate n (QOp.newJob t)) =
      (List.range n).map (fun k : Nat => wrap64 (s + 1 + (k : Int))) := by
  intro n
  induction n with
  | zero => intro s; rfl
  | succ m ih =>
    intro s
    rw [List.replicate_succ]
    simp only [idsFromSeq]
    rw [ih (wrap64 (s + 1)), List.range_succ_eq_map, List.map_cons, List.map_map]
    congr 1
    · norm_num
    · apply List.map_congr_left
      intro k _
      show wrap64 (wrap64 (s + 1) + 1 + (k : Int)) = wrap64 (s + 1 + ((k + 1 : Nat) : Int))
      rw [show wrap64 (s + 1) + 1 + (k : Int) = wrap64 (s + 1) + (1 + k) by ring, wrap64_add]
      congr 1
      push_cast
      ring

/-- C5 counterexample: over a sequence of 2^63 job creations the int64
sequence counter wraps: the id of the last creation is -2^63, smaller than
its predecessor 2^63 - 1, so the ids are not strictly increasing over the
queue's lifetime as the claim states. -/
theorem queue_ids_wrap_cex :
    ¬ (assignedIds (List.replicate (2 ^ 63) (QOp.newJob 0))).Pairwise
        (fun a b => a < b) := by
  intro h
  rw [assignedIds, runOps_ids, show initQ.seq = 0 from rfl, idsFromSeq_replicate] at h
  have hlen : ((List.range (2 ^ 63)).map
      (fun k : Nat => wrap64 (0 + 1 + (k : Int)))).length = 2 ^ 63 := by
    simp
  have hi : (2 : Nat) ^ 63 - 2 < ((List.range (2 ^ 63)).map
      (fun k : Nat => wrap64 (0 + 1 + (k : Int)))).length := by
    rw [hlen]; norm_num
  have hj : (2 : Nat) ^ 63 - 1 < ((List.range (2 ^ 63)).map
      (fun k : Nat => wrap64 (0 + 1 + (k : Int)))).length := by
    rw [hlen]; norm_num
  have hp := List.pairwise_iff_getElem.mp h (2 ^ 63 - 2) (2 ^ 63 - 1) hi hj (by norm_num)
  rw [List.getElem_map, List.getElem_map, List.getElem_range, List.getElem_range] at hp
  have e1 : wrap64 (0 + 1 + ((2 ^ 63 - 2 : Nat) : Int)) = 9223372036854775807 := by
    rw [show (0 + 1 + ((2 ^ 63 - 2 : Nat) : Int)) = 9223372036854775807 by norm_num]
    rw [wrap64_eq _ (by rw [pow63_int]; norm_num) (by rw [pow63_int]; norm_num)]
  have e2 : wrap64 (0 + 1 + ((2 ^ 63 - 1 : Nat) : Int)) = -9223372036854775808 := by
    rw [show (0 + 1 + ((2 ^ 63 - 1 : Nat) : Int)) = 9223372036854775808 by norm_num]
    unfold wrap64
    rw [pow63_int, pow64_int]
    norm_num
  rw [e1, e2] at hp
  norm_num at hp

/-- C8 counterexample: with non-decreasing (here equal) clock readings, the
write of "a\nb\n" at time 5 stamps its lines 5 and 6, and the next write of
"c\n" — the clock still reading 5 — stamps its line 5 again: the stream's
timestamps are not non-decreasing, because Write overwrites lastWrite with
the raw clock reading instead of advancing it monotonically. -/
theorem stream_monotone_cex :
    ¬ (∀ ws : List (Int × String),
        (ws.map (fun w => w.1)).Pairwise (fun a b => a ≤ b) →
        (timestamps (writeAll newStream ws)).Pairwise (fun a b => a ≤ b)) := by
  intro h
  have h2 := h [(5, "a\nb\n"), (5, "c\n")] (by decide)
  exact absurd h2 (by decide)

/-- Helper: the timestamps a write generates for its complete lines, as a
range starting at the clock reading. -/
theorem enum_stamps (c : List String) (now : Int) :
    c.enum.map (fun p => now + (p.1 : Int)) =
      (List.range c.length).map (fun k : Nat => now + (k : Int)) := by
  rw [← List.enum_map_fst c, List.map_map]
  rfl

/-- Helper: such a range of stamps is sorted. -/
theorem range_stamps_pairwise (n : Nat) (now : Int) :
    ((List.range n).map (fun k : Nat => now + (k : Int))).Pairwise (fun a b => a ≤ b) :=
  (List.pairwise_lt_range n).map _
    (fun a b hab => by
      have : (a : Int) < (b : Int) := by exact_mod_cast hab
      omega)

/-- Helper: each stamp in the range is bounded by the clock plus the count. -/
theorem range_stamps_bound (n : Nat) (now : Int) :
    ∀ x ∈ (List.range n).map (fun k : Nat => now + (k : Int)), x ≤ now + n := by
  intro x hx
  obtain ⟨k, hk, rfl⟩ := List.mem_map.mp hx
  have hkn : k < n := List.mem_range.mp hk
  have : (k : Int) < (n : Int) := by exact_mod_cast hkn
  omega

/-- Helper: one write preserves sortedness of the stream's timestamps and
their bound by lastWrite, provided the clock reading is no earlier than the
current lastWrite. -/
theorem streamWrite_inv (s : LogStream) (now : Int) (data : String)
    (hmono : (timestamps s).Pairwise (fun a b => a ≤ b))
    (hbound : ∀ x ∈ timestamps s, x ≤ s.lastWrite)
    (hclock : s.lastWrite ≤ now) :
    (timestamps (streamWrite s now data)).Pairwise (fun a b => a ≤ b) ∧
      ∀ x ∈ timestamps (streamWrite s now data), x ≤ (streamWrite s now data).lastWrite := by
  unfold streamWrite
  by_cases h0 : data.length = 0
  · rw [if_pos h0]
    exact ⟨hmono, hbound⟩
  · rw [if_neg h0]
    dsimp only
    unfold timestamps at hmono hbound ⊢
    dsimp only
    rw [List.map_append, List.map_map]
    have hstamps :
        (((s.unprocessed ++ (goSplitNewline data).headD "") ::
            (goSplitNewline data).tail).dropLast.enum.map
          ((fun l => l.timestamp) ∘ fun p => LogE.mk (now + (p.1 : Int)) p.2)) =
        (List.range (((s.unprocessed ++ (goSplitNewline data).headD "") ::
            (goSplitNewline data).tail).dropLast.length)).map
          (fun k : Nat => now + (k : Int)) := by
      rw [show ((fun l => l.timestamp) ∘ fun p : Nat × String => LogE.mk (now + (p.1 : Int)) p.2) =
        (fun p : Nat × String => now + (p.1 : Int)) from rfl]
      exact enum_stamps _ now
    rw [hstamps]
    constructor
    · rw [List.pairwise_append]
      refine ⟨hmono, range_stamps_pairwise _ now, ?_⟩
      intro a ha b2 hb2
      obtain ⟨k, hk, rfl⟩ := List.mem_map.mp hb2
      have h1 := hbound a ha
      have h2 : (0 : Int) ≤ (k : Int) := Int.natCast_nonneg _
      omega
    · intro x hx
      rcases List.mem_append.mp hx with hin | hin
      · have h1 := hbound x hin
        have h2 : (0 : Int) ≤
            (((s.unprocessed ++ (goSplitNewline data).headD "") ::
              (goSplitNewline data).tail).dropLast.length : Int) := Int.natCast_nonneg _
        omega
      · have := range_stamps_bound _ now x hin
        omega

/-- Helper: along any write sequence whose clock readings never run behind
the stream's lastWrite, the full timestamp list stays sorted. -/
theorem writeAll_inv (ws : List (Int × String)) : ∀ s : LogStream,
    (timestamps s).Pairwise (fun a b => a ≤ b) →
    (∀ x ∈ timestamps s, x ≤ s.lastWrite) →
    clockOK s ws = true →
    (timestamps (writeAll s ws)).Pairwise (fun a b => a ≤ b) := by
  induction ws with
  | nil => intro s hm _ _; exact hm
  | cons w rest ih =>
    intro s hm hb hc
    simp only [clockOK, Bool.and_eq_true, decide_eq_true_eq] at hc
    have hinv := streamWrite_inv s w.1 w.2 hm hb hc.1
    exact ih _ hinv.1 hinv.2 hc.2

/-- C8 amended: (a) provided each Write call's clock reading is no earlier
than the stream's internal last-write time (the previous reading advanced
one nanosecond per emitted line), the timestamps of the recorded entries
are non-decreasing over the whole stream; and (b) unconditionally, the
entries appended by one Write carry the timestamps now, now+1, now+2, ...
— strictly increasing by one nanosecond per line within the write. -/
theorem stream_timestamps_amended :
    (∀ ws : List (Int × String), clockOK newStream ws = true →
      (timestamps (writeAll newStream ws)).Pairwise (fun a b => a ≤ b)) ∧
    (∀ (s : LogStream) (now : Int) (data : String),
      stampsAdded s now data =
        (List.range ((streamWrite s now data).logs.length - s.logs.length)).map
          (fun k : Nat => now + (k : Int))) := by
  constructor
  · intro ws hc
    exact writeAll_inv ws newStream (by simp [timestamps, newStream])
      (by intro x hx; simp [timestamps, newStream] at hx) hc
  · intro s now data
    unfold stampsAdded streamWrite
    by_cases h0 : data.length = 0
    · rw [if_pos h0]
      simp
    · rw [if_neg h0]
      dsimp only
      rw [List.drop_left' rfl, List.map_map, List.length_append, Nat.add_sub_cancel_left,
        List.length_map, List.enum_length]
      exact enum_stamps _ now

/-- Witness for C8 amended: a two-write trace with advancing clock stays
sorted, and a concrete three-line write stamps its lines 3, 4. -/
theorem stream_timestamps_amended_witness :
    (timestamps (writeAll newStream [(3, "a\nb"), (9, "c\n")])).Pairwise
        (fun a b => a ≤ b) ∧
    stampsAdded newStream 3 "a\nb\nc" =
      (List.range ((streamWrite newStream 3 "a\nb\nc").logs.length -
          newStream.logs.length)).map (fun k : Nat => 3 + (k : Int)) :=
  ⟨stream_timestamps_amended.1 [(3, "a\nb"), (9, "c\n")] (by decide),
   stream_timestamps_amended.2 newStream 3 "a\nb\nc"⟩
